import Mathlib

/-!
# Verification of the gem-puzzle A* solver

Shallow embedding of the sliding-tile (gem) puzzle solver from
`gem-puzzle.ipynb`: the state/action model (`available_actions`,
`do_action`), the two heuristics (`manhattan_distance`,
`enhanced_manhattan`), the A* engine (`GemPuzzleSolver.solve`, embedded
as `stepLoop`/`loopIter`/`solve` over an explicit configuration), and the
path reconstructor (`reconstruct_path`).

Modelling notes:
* `PState` models the `numpy` 2-D array as a list of rows; cell reads use
  a default of `0` out of bounds and cell writes out of bounds are no-ops
  (the Python code never performs an out-of-bounds access on the inputs
  the claims quantify over, where bounds hypotheses are stated).
* `np.where(state == v)` takes the first match in row-major order; this
  is `findVal`.  Where the Python code would raise `IndexError` (value
  absent), the embedding returns `none` and the caller skips the entry;
  all claims are about inputs where the value is present.
* The `heapq` frontier is modelled as a list; `heappop` is `extractMin`,
  which removes a node of minimal `f_cost` (the Python heap's order among
  equal-`f` nodes is unspecified, so any minimal choice is a faithful
  refinement); `heappush` conses onto the list.
* The `while` loop of `solve` is one step function `stepLoop` iterated
  with fuel by `loopIter`; `StepRes.done` additionally records the
  internal configuration at the return point so that invariants about
  the closed set and the evaluated counter can be stated.
-/

namespace GemPuzzle

/-- A grid coordinate `(row, column)`. -/
abbrev Pos := Nat × Nat

/-- `Action = namedtuple('Action', ['pos1', 'pos2'])`. -/
abbrev Action := Pos × Pos

/-- A puzzle state: the `numpy` 2-D array as a list of rows. -/
abbrev PState := List (List Nat)

/-- Read the cell at `p` (default `0` when out of bounds). -/
def getCell (s : PState) (p : Pos) : Nat :=
  (s.getD p.1 []).getD p.2 0

/-- Write `v` at `p` (no-op when out of bounds, like `List.set`). -/
def setCell (s : PState) (p : Pos) (v : Nat) : PState :=
  s.set p.1 ((s.getD p.1 []).set p.2 v)

/-- Row lengths of a grid; two grids with the same `dims` have the same
shape. -/
def dims (s : PState) : List Nat := s.map List.length

/-- First position of value `v` in row-major order, starting at row
index `i`: the helper behind `np.where(state == v)` followed by taking
the first match. -/
def findValAux (v : Nat) : Nat → List (List Nat) → Option Pos
  | _, [] => none
  | i, r :: rs =>
    match r.findIdx? (· = v) with
    | some j => some (i, j)
    | none => findValAux v (i + 1) rs

/-- First position of value `v` in row-major order
(`np.where(state == v)`, first match). -/
def findVal (s : PState) (v : Nat) : Option Pos := findValAux v 0 s

/-- `available_actions(state)`: locate the blank (`x, y`), then emit one
action per in-bounds orthogonal neighbour, in the source's order
up, down, left, right.  (The source would raise if no blank exists; the
claims only concern states with a blank.) -/
def available_actions (s : PState) : List Action :=
  match findVal s 0 with
  | none => []
  | some (x, y) =>
    let d := s.length
    (if 0 < x then [((x, y), (x - 1, y))] else []) ++
    (if x < d - 1 then [((x, y), (x + 1, y))] else []) ++
    (if 0 < y then [((x, y), (x, y - 1))] else []) ++
    (if y < d - 1 then [((x, y), (x, y + 1))] else [])

/-- `do_action(state, action)`: copy the state and swap the contents of
`action.pos1` and `action.pos2` (the Python tuple assignment reads both
old values first, then writes `pos1`, then `pos2`). -/
def do_action (s : PState) (a : Action) : PState :=
  let v1 := getCell s a.1
  let v2 := getCell s a.2
  setCell (setCell s a.1 v2) a.2 v1

/-- `manhattan_distance(state, goal_state)`: sum over the `dim × dim`
index square of the Manhattan distance of each non-blank tile from its
(first, row-major) position in the goal. -/
def manhattan_distance (s g : PState) : Nat :=
  (List.range s.length).foldl (fun acc i =>
    (List.range s.length).foldl (fun acc2 j =>
      let v := getCell s (i, j)
      if v ≠ 0 then
        match findVal g v with
        | some (gx, gy) => acc2 + (Nat.dist i gx + Nat.dist j gy)
        | none => acc2
      else acc2) acc) 0

/-- Penalty contributed by the ordered pair `(a, b)` (with `a` before `b`
in the current line) inside `count_conflicts`: `2` when both are
non-blank, both occur in the goal line `l2`, and their goal order is
reversed. -/
def pairPenalty (l2 : List Nat) (a b : Nat) : Nat :=
  if b ≠ 0 ∧ a ∈ l2 ∧ b ∈ l2 ∧ l2.indexOf b < l2.indexOf a then 2 else 0

/-- `count_conflicts(line1, line2)`: the double loop over pairs
`i < j` of `line1`, skipping blanks. -/
def count_conflicts : List Nat → List Nat → Nat
  | [], _ => 0
  | x :: xs, l2 =>
    (if x ≠ 0 then (xs.map (fun y => pairPenalty l2 x y)).sum else 0) +
      count_conflicts xs l2

/-- Column `j` of a grid (`state[:, j]`). -/
def col (s : PState) (j : Nat) : List Nat := s.map (fun r => r.getD j 0)

/-- `enhanced_manhattan(state, goal_state)`: Manhattan distance plus the
linear-conflict penalties of every row and every column. -/
def enhanced_manhattan (s g : PState) : Nat :=
  let cost := manhattan_distance s g
  let cost := (List.range s.length).foldl
    (fun c i => c + count_conflicts (s.getD i []) (g.getD i [])) cost
  (List.range (s.headD []).length).foldl
    (fun c j => c + count_conflicts (col s j) (col g j)) cost

/-- The `Node` dataclass: state, optional parent, optional action, the
cost from the start `g_cost` and the heuristic estimate `h_cost`. -/
inductive Node where
  | mk : PState → Option Node → Option Action → Nat → Nat → Node

/-- The `state` field of a node. -/
def Node.state : Node → PState
  | .mk s _ _ _ _ => s

/-- The `parent` field of a node. -/
def Node.parent : Node → Option Node
  | .mk _ p _ _ _ => p

/-- The `action` field of a node. -/
def Node.action : Node → Option Action
  | .mk _ _ a _ _ => a

/-- The `g_cost` field of a node. -/
def Node.g_cost : Node → Nat
  | .mk _ _ _ g _ => g

/-- The `h_cost` field of a node. -/
def Node.h_cost : Node → Nat
  | .mk _ _ _ _ h => h

/-- `Node.f_cost`: estimated total cost `g + h`; `Node.__lt__` orders
nodes by this value alone. -/
def Node.f_cost (n : Node) : Nat := n.g_cost + n.h_cost

/-- `heappop` on the frontier: remove a node of minimal `f_cost`
(leftmost among ties; the heap's tie order is unspecified, so this is
one faithful refinement). -/
def extractMin : List Node → Option (Node × List Node)
  | [] => none
  | x :: xs =>
    match extractMin xs with
    | none => some (x, [])
    | some (m, ys) =>
      if x.f_cost ≤ m.f_cost then some (x, xs) else some (m, x :: ys)

/-- Canonical state key: `state_to_tuple` flattens the grid. -/
def state_to_tuple (s : PState) : List Nat := s.flatten

/-- The `g_scores` dictionary: an association list, most recent entry
first (`defaultdict` misses are `none`, i.e. infinity). -/
abbrev GS := List (List Nat × Nat)

/-- Lookup in `g_scores`. -/
def gsFind : GS → List Nat → Option Nat
  | [], _ => none
  | (k, v) :: rest, k' => if k' = k then some v else gsFind rest k'

/-- `reconstruct_path(node)`: walk parents collecting
`(state, action)`, add `(root state, None)` for the start, reversed into
chronological order. -/
def reconstruct_path : Node → List (PState × Option Action)
  | .mk s none _ _ _ => [(s, none)]
  | .mk s (some p) a _ _ => reconstruct_path p ++ [(s, a)]

/-- The mutable locals of one `solve` call: frontier, `g_scores`,
closed set, and the `states_evaluated` counter. -/
structure Config where
  openL : List Node
  gs : GS
  closed : List (List Nat)
  evaluated : Nat

/-- The triple `solve` returns: optional path, move count, states
evaluated. -/
abbrev Result := Option (List (PState × Option Action)) × Nat × Nat

/-- The body of the `for action in available_actions(...)` loop: skip
closed neighbours, skip non-improving `g`, otherwise record the new
`g_score` and push a new node. -/
def processAction (goal : PState) (h : PState → PState → Nat) (cur : Node)
    (closed : List (List Nat)) (acc : List Node × GS) (a : Action) :
    List Node × GS :=
  let ns := do_action cur.state a
  let nk := state_to_tuple ns
  if nk ∈ closed then acc
  else
    let ng := cur.g_cost + 1
    match gsFind acc.2 nk with
    | some old =>
      if old ≤ ng then acc
      else (Node.mk ns (some cur) (some a) ng (h ns goal) :: acc.1,
            (nk, ng) :: acc.2)
    | none => (Node.mk ns (some cur) (some a) ng (h ns goal) :: acc.1,
               (nk, ng) :: acc.2)

/-- Outcome of one iteration of the `while open_set:` loop: continue
with a new configuration, or return a `Result` (`done` also records the
internal configuration at the return point). -/
inductive StepRes where
  | cont : Config → StepRes
  | done : Result → Config → StepRes

/-- One iteration of the `while open_set:` loop of
`GemPuzzleSolver.solve`. -/
def stepLoop (goal : PState) (h : PState → PState → Nat) (c : Config) :
    StepRes :=
  match extractMin c.openL with
  | none => .done (none, 0, c.evaluated) c
  | some (cur, rest) =>
    let ck := state_to_tuple cur.state
    if ck ∈ c.closed then .cont ⟨rest, c.gs, c.closed, c.evaluated⟩
    else
      let ev := c.evaluated + 1
      if cur.state = goal then
        let path := reconstruct_path cur
        .done (some path, path.length - 1, ev) ⟨rest, c.gs, c.closed, ev⟩
      else
        let closed' := ck :: c.closed
        let og := (available_actions cur.state).foldl
          (processAction goal h cur closed') (rest, c.gs)
        .cont ⟨og.1, og.2, closed', ev⟩

/-- Iterate `stepLoop` with fuel; `Sum.inl` is an unfinished run,
`Sum.inr` a returned result together with the final internal
configuration. -/
def loopIter (goal : PState) (h : PState → PState → Nat) :
    Nat → Config → Config ⊕ (Result × Config)
  | 0, c => .inl c
  | n + 1, c =>
    match stepLoop goal h c with
    | .cont c' => loopIter goal h n c'
    | .done r c' => .inr (r, c')

/-- The initial configuration of `solve`: the start node with `g = 0`,
`g_scores` seeded at the start key, empty closed set, counter `0`. -/
def initConfig (init goal : PState) (h : PState → PState → Nat) : Config :=
  ⟨[Node.mk init none none 0 (h init goal)],
   [(state_to_tuple init, 0)], [], 0⟩

/-- `GemPuzzleSolver.solve`, fuelled: `none` means the fuel ran out
before the loop finished (the Python loop simply keeps running). -/
def solve (init goal : PState) (h : PState → PState → Nat) (fuel : Nat) :
    Option Result :=
  match loopIter goal h fuel (initConfig init goal h) with
  | .inl _ => none
  | .inr (r, _) => some r

/-! ## The move graph: reachability and true distance -/

/-- One legal move: some available action takes `s` to `t`. -/
def StepTo (s t : PState) : Prop :=
  ∃ a ∈ available_actions s, do_action s a = t

/-- `ReachN n s t`: `t` is reachable from `s` in exactly `n` legal
moves. -/
def ReachN : Nat → PState → PState → Prop
  | 0, s, t => s = t
  | n + 1, s, t => ∃ u, StepTo s u ∧ ReachN n u t

/-- `t` is reachable from `s` in some number of moves. -/
def Reachable (s t : PState) : Prop := ∃ n, ReachN n s t

/-- `d` is the true shortest-path distance from `s` to `t`. -/
def IsDist (s t : PState) (d : Nat) : Prop :=
  ReachN d s t ∧ ∀ m, ReachN m s t → d ≤ m

/-- Run a list of actions, checking each is available at the state where
it is applied (used to exhibit concrete legal paths). -/
def runActions : PState → List Action → Option PState
  | s, [] => some s
  | s, a :: as =>
    if a ∈ available_actions s then runActions (do_action s a) as else none

/-! ## Basic lemmas about cells, rows and shapes -/

theorem getD_set_self {α : Type} (l : List α) (i : Nat) (a d : α)
    (h : i < l.length) : (l.set i a).getD i d = a := by
  induction l generalizing i with
  | nil => simp at h
  | cons x xs ih =>
    cases i with
    | zero => rfl
    | succ i => exact ih i (Nat.lt_of_succ_lt_succ h)

theorem getD_set_ne {α : Type} (l : List α) {i i' : Nat} (a : α) (d : α)
    (h : i' ≠ i) : (l.set i a).getD i' d = l.getD i' d := by
  induction l generalizing i i' with
  | nil => rfl
  | cons x xs ih =>
    cases i with
    | zero =>
      cases i' with
      | zero => exact absurd rfl h
      | succ i' => rfl
    | succ i =>
      cases i' with
      | zero => rfl
      | succ i' => exact ih (fun hh => h (by omega))

theorem set_oob {α : Type} (l : List α) {i : Nat} (a : α)
    (h : l.length ≤ i) : l.set i a = l := by
  induction l generalizing i with
  | nil => rfl
  | cons x xs ih =>
    cases i with
    | zero => simp at h
    | succ i => simpa using ih (by simpa using h)

theorem setCell_cons_zero (r : List Nat) (rs : PState) (j v : Nat) :
    setCell (r :: rs) (0, j) v = r.set j v :: rs := rfl

theorem setCell_cons_succ (r : List Nat) (rs : PState) (i j v : Nat) :
    setCell (r :: rs) (i + 1, j) v = r :: setCell rs (i, j) v := rfl

theorem getCell_cons_zero (r : List Nat) (rs : PState) (j : Nat) :
    getCell (r :: rs) (0, j) = r.getD j 0 := rfl

theorem getCell_cons_succ (r : List Nat) (rs : PState) (i j : Nat) :
    getCell (r :: rs) (i + 1, j) = getCell rs (i, j) := rfl

theorem dims_setCell (s : PState) (p : Pos) (v : Nat) :
    dims (setCell s p v) = dims s := by
  obtain ⟨i, j⟩ := p
  induction s generalizing i with
  | nil => rfl
  | cons r rs ih =>
    cases i with
    | zero => simp [setCell_cons_zero, dims]
    | succ i => simpa [setCell_cons_succ, dims] using ih i

theorem dims_do_action (s : PState) (a : Action) :
    dims (do_action s a) = dims s := by
  unfold do_action
  rw [dims_setCell, dims_setCell]

theorem length_of_dims {s t : PState} (h : dims s = dims t) :
    s.length = t.length := by
  have := congrArg List.length h
  simpa [dims] using this

theorem rowlen_of_dims {s t : PState} (h : dims s = dims t) (i : Nat) :
    (s.getD i []).length = (t.getD i []).length := by
  induction s generalizing t i with
  | nil =>
    have : t = [] := by
      cases t with
      | nil => rfl
      | cons _ _ => simp [dims] at h
    subst this; rfl
  | cons r rs ih =>
    cases t with
    | nil => simp [dims] at h
    | cons r' rs' =>
      simp only [dims, List.map_cons, List.cons.injEq] at h
      cases i with
      | zero => simpa using h.1
      | succ i => simpa using ih (by simpa [dims] using h.2) i

theorem row_ext (r r' : List Nat) (hlen : r.length = r'.length)
    (h : ∀ j, r.getD j 0 = r'.getD j 0) : r = r' := by
  induction r generalizing r' with
  | nil =>
    cases r' with
    | nil => rfl
    | cons _ _ => simp at hlen
  | cons x xs ih =>
    cases r' with
    | nil => simp at hlen
    | cons y ys =>
      have hx : x = y := h 0
      have : xs = ys := ih ys (by simpa using hlen) (fun j => h (j + 1))
      rw [hx, this]

theorem grid_ext (s t : PState) (hd : dims s = dims t)
    (hc : ∀ p : Pos, getCell s p = getCell t p) : s = t := by
  induction s generalizing t with
  | nil =>
    cases t with
    | nil => rfl
    | cons _ _ => simp [dims] at hd
  | cons r rs ih =>
    cases t with
    | nil => simp [dims] at hd
    | cons r' rs' =>
      simp only [dims, List.map_cons, List.cons.injEq] at hd
      have hr : r = r' := row_ext r r' hd.1 (fun j => hc (0, j))
      have : rs = rs' := ih rs' (by simpa [dims] using hd.2)
        (fun p => hc (p.1 + 1, p.2))
      rw [hr, this]

theorem getCell_setCell_self (s : PState) (p : Pos) (v : Nat)
    (h1 : p.1 < s.length) (h2 : p.2 < (s.getD p.1 []).length) :
    getCell (setCell s p v) p = v := by
  obtain ⟨i, j⟩ := p
  induction s generalizing i with
  | nil => simp at h1
  | cons r rs ih =>
    cases i with
    | zero =>
      rw [setCell_cons_zero, getCell_cons_zero]
      exact getD_set_self r j v 0 (by simpa using h2)
    | succ i =>
      rw [setCell_cons_succ, getCell_cons_succ]
      exact ih i (by simpa using h1) (by simpa using h2)

theorem getCell_setCell_ne (s : PState) {p q : Pos} (v : Nat)
    (h : q ≠ p) : getCell (setCell s p v) q = getCell s q := by
  obtain ⟨i, j⟩ := p
  obtain ⟨i', j'⟩ := q
  by_cases hrow : i' = i
  · subst hrow
    have hcol : j' ≠ j := fun hh => h (by rw [hh])
    unfold getCell setCell
    by_cases hi : i' < s.length
    · rw [getD_set_self s i' _ [] hi]
      exact getD_set_ne _ v 0 hcol
    · rw [set_oob s _ (Nat.le_of_not_lt hi)]
  · unfold getCell setCell
    rw [getD_set_ne s _ [] hrow]

/-- Pointwise description of `do_action` on an arbitrary in-bounds pair
of positions: the two cells are exchanged and everything else is
untouched. -/
theorem do_action_cells (s : PState) (p q : Pos)
    (hp1 : p.1 < s.length) (hp2 : p.2 < (s.getD p.1 []).length)
    (hq1 : q.1 < s.length) (hq2 : q.2 < (s.getD q.1 []).length) :
    getCell (do_action s (p, q)) p = getCell s q ∧
    getCell (do_action s (p, q)) q = getCell s p ∧
    ∀ r : Pos, r ≠ p → r ≠ q → getCell (do_action s (p, q)) r = getCell s r := by
  have hd1 : dims (setCell s p (getCell s (p, q).2)) = dims s := dims_setCell ..
  refine ⟨?_, ?_, ?_⟩
  · by_cases hpq : p = q
    · subst hpq
      show getCell (setCell (setCell s p (getCell s p)) p (getCell s p)) p = _
      rw [getCell_setCell_self _ _ _ (by simpa [length_of_dims hd1] using hp1)
        (by rw [rowlen_of_dims hd1]; exact hp2)]
    · show getCell (setCell (setCell s p (getCell s q)) q (getCell s p)) p = _
      rw [getCell_setCell_ne _ _ hpq,
        getCell_setCell_self _ _ _ hp1 hp2]
  · show getCell (setCell (setCell s p (getCell s q)) q (getCell s p)) q = _
    rw [getCell_setCell_self _ _ _ (by simpa [length_of_dims hd1] using hq1)
      (by rw [rowlen_of_dims hd1]; exact hq2)]
  · intro r hrp hrq
    show getCell (setCell (setCell s p (getCell s q)) q (getCell s p)) r = _
    rw [getCell_setCell_ne _ _ hrq, getCell_setCell_ne _ _ hrp]

/-! ## `findVal` and `available_actions` analysis -/

theorem findIdx?_lt_length {p : Nat → Bool} {l : List Nat} {j : Nat}
    (h : l.findIdx? p = some j) : j < l.length := by
  induction l generalizing j with
  | nil => simp [List.findIdx?] at h
  | cons x xs ih =>
    rw [List.findIdx?_cons] at h
    by_cases hx : p x
    · simp [hx] at h
      subst h
      simp
    · simp [hx] at h
      obtain ⟨j', hj', rfl⟩ := h
      have := ih hj'
      simp
      omega

theorem findValAux_bounds {v i : Nat} {s : PState} {x y : Nat}
    (h : findValAux v i s = some (x, y)) :
    i ≤ x ∧ x - i < s.length ∧ y < (s.getD (x - i) []).length := by
  induction s generalizing i with
  | nil => simp [findValAux] at h
  | cons r rs ih =>
    rw [findValAux] at h
    cases hf : r.findIdx? (· = v) with
    | some j =>
      rw [hf] at h
      obtain ⟨rfl, rfl⟩ : i = x ∧ j = y := by
        simpa using h
      refine ⟨Nat.le_refl _, by simp, ?_⟩
      simpa using findIdx?_lt_length hf
    | none =>
      rw [hf] at h
      obtain ⟨h1, h2, h3⟩ := ih h
      refine ⟨by omega, by simp; omega, ?_⟩
      have hx : x - i = (x - (i + 1)) + 1 := by omega
      rw [hx]
      simpa using h3

theorem findVal_bounds {v : Nat} {s : PState} {x y : Nat}
    (h : findVal s v = some (x, y)) :
    x < s.length ∧ y < (s.getD x []).length := by
  obtain ⟨_, h2, h3⟩ := findValAux_bounds (h := h)
  simpa using And.intro h2 h3

theorem mem_ite_singleton {a e : Action} {c : Prop} [Decidable c] :
    a ∈ (if c then [e] else []) ↔ c ∧ a = e := by
  split <;> simp_all

/-- Anatomy of a member of `available_actions`: its first component is
the blank position and its second is one of the four guarded
neighbours. -/
theorem mem_available_actions {s : PState} {a : Action} {x y : Nat}
    (hb : findVal s 0 = some (x, y)) (ha : a ∈ available_actions s) :
    a.1 = (x, y) ∧
      ((0 < x ∧ a.2 = (x - 1, y)) ∨ (x < s.length - 1 ∧ a.2 = (x + 1, y)) ∨
       (0 < y ∧ a.2 = (x, y - 1)) ∨ (y < s.length - 1 ∧ a.2 = (x, y + 1))) := by
  rw [available_actions, hb] at ha
  simp only [List.mem_append, mem_ite_singleton] at ha
  rcases ha with ((⟨hc, he⟩ | ⟨hc, he⟩) | ⟨hc, he⟩) | ⟨hc, he⟩ <;>
    subst he <;> simp [hc]

/-- In a square grid, every action returned by `available_actions` has
both positions in bounds (row and column index below the number of rows,
and column index below the actual row length). -/
theorem available_actions_bounds {s : PState} {a : Action}
    (hsq : ∀ r ∈ s, r.length = s.length) (ha : a ∈ available_actions s) :
    a.1.1 < s.length ∧ a.1.2 < (s.getD a.1.1 []).length ∧
    a.2.1 < s.length ∧ a.2.2 < (s.getD a.2.1 []).length := by
  cases hb : findVal s 0 with
  | none => rw [available_actions, hb] at ha; simp at ha
  | some xy =>
    obtain ⟨x, y⟩ := xy
    obtain ⟨hx, hy⟩ := findVal_bounds hb
    have hrow : ∀ i, i < s.length → (s.getD i []).length = s.length := by
      intro i hi
      rw [List.getD_eq_getElem s [] hi]
      exact hsq _ (List.getElem_mem hi)
    have hys : y < s.length := by rw [hrow x hx] at hy; exact hy
    obtain ⟨h1, h2⟩ := mem_available_actions hb ha
    rw [h1]
    refine ⟨hx, hy, ?_⟩
    rcases h2 with ⟨hc, he⟩ | ⟨hc, he⟩ | ⟨hc, he⟩ | ⟨hc, he⟩ <;> rw [he]
    · exact ⟨by omega, by rw [hrow _ (by omega)]; omega⟩
    · exact ⟨by omega, by rw [hrow _ (by omega)]; omega⟩
    · exact ⟨hx, by rw [hrow _ hx]; omega⟩
    · exact ⟨hx, by rw [hrow _ hx]; omega⟩

/-- Claim C10: `do_action` is total on arbitrary in-bounds coordinate
pairs — even when neither cell is the blank and the cells are not
adjacent, it returns a grid of the same shape with the contents of the
two cells exchanged and every other cell untouched.  (The embedding is
a pure function, so the input grid is never modified.) -/
theorem do_action_total_swap (s : PState) (p q : Pos)
    (hp1 : p.1 < s.length) (hp2 : p.2 < (s.getD p.1 []).length)
    (hq1 : q.1 < s.length) (hq2 : q.2 < (s.getD q.1 []).length) :
    dims (do_action s (p, q)) = dims s ∧
    getCell (do_action s (p, q)) p = getCell s q ∧
    getCell (do_action s (p, q)) q = getCell s p ∧
    ∀ r : Pos, r ≠ p → r ≠ q → getCell (do_action s (p, q)) r = getCell s r := by
  obtain ⟨h1, h2, h3⟩ := do_action_cells s p q hp1 hp2 hq1 hq2
  exact ⟨dims_do_action s (p, q), h1, h2, h3⟩

/-- Closed witness for C10 on a concrete non-adjacent, non-blank pair. -/
theorem do_action_total_swap_witness :
    dims (do_action [[1, 2, 3], [4, 5, 6], [7, 8, 0]] ((0, 0), (2, 1))) =
      dims [[1, 2, 3], [4, 5, 6], [7, 8, 0]] ∧
    getCell (do_action [[1, 2, 3], [4, 5, 6], [7, 8, 0]] ((0, 0), (2, 1)))
      (0, 0) = getCell [[1, 2, 3], [4, 5, 6], [7, 8, 0]] (2, 1) ∧
    getCell (do_action [[1, 2, 3], [4, 5, 6], [7, 8, 0]] ((0, 0), (2, 1)))
      (2, 1) = getCell [[1, 2, 3], [4, 5, 6], [7, 8, 0]] (0, 0) ∧
    ∀ r : Pos, r ≠ (0, 0) → r ≠ (2, 1) →
      getCell (do_action [[1, 2, 3], [4, 5, 6], [7, 8, 0]] ((0, 0), (2, 1))) r
        = getCell [[1, 2, 3], [4, 5, 6], [7, 8, 0]] r :=
  do_action_total_swap [[1, 2, 3], [4, 5, 6], [7, 8, 0]] (0, 0) (2, 1)
    (by decide) (by decide) (by decide) (by decide)

/-- Swapping the same in-bounds pair twice restores the grid. -/
theorem do_action_do_action (s : PState) (p q : Pos)
    (hp1 : p.1 < s.length) (hp2 : p.2 < (s.getD p.1 []).length)
    (hq1 : q.1 < s.length) (hq2 : q.2 < (s.getD q.1 []).length) :
    do_action (do_action s (p, q)) (p, q) = s := by
  set s1 := do_action s (p, q) with hs1
  have hdims : dims s1 = dims s := dims_do_action s (p, q)
  have hp1' : p.1 < s1.length := by rw [length_of_dims hdims]; exact hp1
  have hp2' : p.2 < (s1.getD p.1 []).length := by
    rw [rowlen_of_dims hdims]; exact hp2
  have hq1' : q.1 < s1.length := by rw [length_of_dims hdims]; exact hq1
  have hq2' : q.2 < (s1.getD q.1 []).length := by
    rw [rowlen_of_dims hdims]; exact hq2
  obtain ⟨ha1, ha2, ha3⟩ := do_action_cells s p q hp1 hp2 hq1 hq2
  obtain ⟨hb1, hb2, hb3⟩ := do_action_cells s1 p q hp1' hp2' hq1' hq2'
  refine grid_ext _ _ (by rw [dims_do_action, hdims]) ?_
  intro r
  by_cases hrp : r = p
  · subst hrp; rw [hb1, ha2]
  · by_cases hrq : r = q
    · subst hrq; rw [hb2, ha1]
    · rw [hb3 r hrp hrq, ha3 r hrp hrq]

/-- Claim C5: for any square state and any action returned by
`available_actions`, applying the action twice returns the original
state (involution).  The embedding of `do_action` is a pure function
returning a fresh grid, so the input state is never mutated. -/
theorem do_action_involution (s : PState) (a : Action)
    (hsq : ∀ r ∈ s, r.length = s.length) (ha : a ∈ available_actions s) :
    do_action (do_action s a) a = s := by
  obtain ⟨h1, h2, h3, h4⟩ := available_actions_bounds hsq ha
  obtain ⟨p, q⟩ := a
  exact do_action_do_action s p q h1 h2 h3 h4

/-- Closed witness for C5 on a concrete 3×3 state and legal action. -/
theorem do_action_involution_witness :
    do_action (do_action [[3, 7, 4], [5, 0, 6], [8, 2, 1]] ((1, 1), (0, 1)))
      ((1, 1), (0, 1)) = [[3, 7, 4], [5, 0, 6], [8, 2, 1]] :=
  do_action_involution [[3, 7, 4], [5, 0, 6], [8, 2, 1]] ((1, 1), (0, 1))
    (by decide) (by decide)

/-! ## Claim C9: shape of `available_actions` -/

/-- Length of `available_actions` as a sum of the four guards. -/
theorem available_actions_length {s : PState} {x y : Nat}
    (hb : findVal s 0 = some (x, y)) :
    (available_actions s).length =
      (if 0 < x then 1 else 0) + ((if x < s.length - 1 then 1 else 0) +
        ((if 0 < y then 1 else 0) + (if y < s.length - 1 then 1 else 0))) := by
  rw [available_actions, hb]
  simp only [List.length_append, apply_ite List.length, List.length_singleton,
    List.length_nil]
  omega

/-- Claim C9 (amended with `2 ≤ N`): `available_actions` returns exactly
one action per in-bounds orthogonal neighbour of the blank — the list
has no duplicates, `((x,y), p)` is a member exactly when `p` is an
in-bounds orthogonal neighbour of the blank `(x, y)`, every member is
legal (swaps the blank with an in-bounds orthogonal neighbour) — and its
length is 2 when the blank is in a corner, 3 on a non-corner edge and 4
in the interior. -/
theorem available_actions_spec (s : PState) (x y : Nat)
    (hsq : ∀ r ∈ s, r.length = s.length) (hb : findVal s 0 = some (x, y))
    (hd : 2 ≤ s.length) :
    (∀ a ∈ available_actions s, a.1 = (x, y) ∧
      Nat.dist a.1.1 a.2.1 + Nat.dist a.1.2 a.2.2 = 1 ∧
      a.2.1 < s.length ∧ a.2.2 < s.length) ∧
    (available_actions s).Nodup ∧
    (∀ p : Pos, ((x, y), p) ∈ available_actions s ↔
      p.1 < s.length ∧ p.2 < s.length ∧
        Nat.dist x p.1 + Nat.dist y p.2 = 1) ∧
    ((x = 0 ∨ x = s.length - 1) → (y = 0 ∨ y = s.length - 1) →
      (available_actions s).length = 2) ∧
    ((((x = 0 ∨ x = s.length - 1) ∧ ¬(y = 0 ∨ y = s.length - 1)) ∨
      (¬(x = 0 ∨ x = s.length - 1) ∧ (y = 0 ∨ y = s.length - 1))) →
      (available_actions s).length = 3) ∧
    (¬(x = 0 ∨ x = s.length - 1) → ¬(y = 0 ∨ y = s.length - 1) →
      (available_actions s).length = 4) := by
  obtain ⟨hx, hy⟩ := findVal_bounds hb
  have hrow : ∀ i, i < s.length → (s.getD i []).length = s.length := by
    intro i hi
    rw [List.getD_eq_getElem s [] hi]
    exact hsq _ (List.getElem_mem hi)
  have hys : y < s.length := by rw [hrow x hx] at hy; exact hy
  have hL := available_actions_length hb
  refine ⟨?_, ?_, ?_, ?_, ?_, ?_⟩
  · intro a ha
    obtain ⟨h1, h2⟩ := mem_available_actions hb ha
    rw [h1]
    rcases h2 with ⟨hc, he⟩ | ⟨hc, he⟩ | ⟨hc, he⟩ | ⟨hc, he⟩ <;> rw [he] <;>
      simp [Nat.dist] <;> omega
  · rw [available_actions, hb]
    by_cases hc1 : 0 < x <;> by_cases hc2 : x < s.length - 1 <;>
      by_cases hc3 : 0 < y <;> by_cases hc4 : y < s.length - 1 <;>
      simp [hc1, hc2, hc3, hc4, List.nodup_append] <;> omega
  · intro p
    constructor
    · intro hp
      obtain ⟨-, h2⟩ := mem_available_actions hb hp
      have hpp : ((x, y), p).2 = p := rfl
      rw [hpp] at h2
      rcases h2 with ⟨hc, he⟩ | ⟨hc, he⟩ | ⟨hc, he⟩ | ⟨hc, he⟩ <;> rw [he] <;>
        simp [Nat.dist] <;> omega
    · rintro ⟨hp1, hp2, hadj⟩
      have hcases : (0 < x ∧ p = (x - 1, y)) ∨ (x < s.length - 1 ∧ p = (x + 1, y)) ∨
          (0 < y ∧ p = (x, y - 1)) ∨ (y < s.length - 1 ∧ p = (x, y + 1)) := by
        obtain ⟨p1, p2⟩ := p
        simp only [Nat.dist] at hadj
        simp only [Prod.mk.injEq]
        omega
      rw [available_actions, hb]
      simp only [List.mem_append, mem_ite_singleton]
      rcases hcases with ⟨hc, he⟩ | ⟨hc, he⟩ | ⟨hc, he⟩ | ⟨hc, he⟩ <;>
        subst he <;> simp [hc]
  · rintro hcx hcy
    rw [hL]
    rcases hcx with rfl | hxe <;> rcases hcy with rfl | hye <;>
      split_ifs <;> omega
  · intro hedge
    rw [hL]
    rcases hedge with ⟨hcx, hcy⟩ | ⟨hcx, hcy⟩
    · push_neg at hcy
      rcases hcx with rfl | hxe <;> split_ifs <;> omega
    · push_neg at hcx
      rcases hcy with rfl | hye <;> split_ifs <;> omega
  · intro hcx hcy
    push_neg at hcx hcy
    rw [hL]
    split_ifs <;> omega

/-- Closed witness for the amended C9 on a concrete 3×3 state (blank on
a non-corner edge). -/
theorem available_actions_spec_witness :
    (available_actions [[1, 0, 3], [4, 2, 6], [7, 5, 8]]).Nodup ∧
    (available_actions [[1, 0, 3], [4, 2, 6], [7, 5, 8]]).length = 3 := by
  have h := available_actions_spec [[1, 0, 3], [4, 2, 6], [7, 5, 8]] 0 1
    (by decide) (by decide) (by decide)
  exact ⟨h.2.1, h.2.2.2.2.1 (by simp)⟩

/-- Counterexample to C9 as stated: on the valid 1×1 state `[[0]]` the
blank sits in a corner, yet `available_actions` returns no action at all
rather than 2. -/
theorem available_actions_1x1_counterexample :
    findVal [[0]] 0 = some (0, 0) ∧
    ((0 : Nat) = 0 ∨ (0 : Nat) = ([[0]] : PState).length - 1) ∧
    ((0 : Nat) = 0 ∨ (0 : Nat) = ([[0]] : PState).length - 1) ∧
    available_actions [[0]] = [] ∧
    (available_actions [[0]]).length ≠ 2 := by
  refine ⟨by decide, Or.inl rfl, Or.inl rfl, by decide, by decide⟩

/-! ## Claim C8: Enhanced Manhattan dominates Manhattan -/

theorem le_foldl_add {β : Type} (f : β → Nat) (l : List β) (b : Nat) :
    b ≤ l.foldl (fun c x => c + f x) b := by
  induction l generalizing b with
  | nil => exact Nat.le_refl b
  | cons x xs ih => exact Nat.le_trans (Nat.le_add_right b (f x)) (ih (b + f x))

/-- Claim C8: for every state and goal, the Enhanced Manhattan estimate
is at least the plain Manhattan distance (the linear-conflict penalties
are all non-negative and are added on top of it). -/
theorem manhattan_le_enhanced (s g : PState) :
    manhattan_distance s g ≤ enhanced_manhattan s g := by
  unfold enhanced_manhattan
  exact Nat.le_trans
    (le_foldl_add (fun i => count_conflicts (s.getD i []) (g.getD i []))
      (List.range s.length) _)
    (le_foldl_add (fun j => count_conflicts (col s j) (col g j))
      (List.range (s.headD []).length) _)

/-! ## Claim C7: path reconstruction -/

/-- Number of moves recorded by a node's parent chain. -/
def chainLen : Node → Nat
  | .mk _ none _ _ _ => 0
  | .mk _ (some p) _ _ _ => chainLen p + 1

/-- The ancestor `j` links up the parent chain (clipped at the root). -/
def ancestorAt : Node → Nat → Node
  | n, 0 => n
  | .mk s none a g h, _ + 1 => .mk s none a g h
  | .mk _ (some p) _ _ _, j + 1 => ancestorAt p j

/-- Claim C7: `reconstruct_path` on a node whose parent chain has length
`m` returns `m + 1` entries in chronological order: entry `k` is the
state of the ancestor at depth `k` from the start, paired with `none`
for `k = 0` and with that ancestor's recorded action for `k ≥ 1`. -/
theorem reconstruct_path_spec (n : Node) :
    (reconstruct_path n).length = chainLen n + 1 ∧
    ∀ k, k ≤ chainLen n →
      (reconstruct_path n).get? k =
        some ((ancestorAt n (chainLen n - k)).state,
          if k = 0 then none else (ancestorAt n (chainLen n - k)).action) := by
  suffices H : ∀ m n_1, chainLen n_1 = m →
      (reconstruct_path n_1).length = chainLen n_1 + 1 ∧
      ∀ k, k ≤ chainLen n_1 →
        (reconstruct_path n_1).get? k =
          some ((ancestorAt n_1 (chainLen n_1 - k)).state,
            if k = 0 then none else (ancestorAt n_1 (chainLen n_1 - k)).action) by
    exact H (chainLen n) n rfl
  intro m
  induction m with
  | zero =>
    rintro ⟨s, p, a, g, h⟩ hm
    cases p with
    | none =>
      refine ⟨rfl, ?_⟩
      intro k hk
      rw [chainLen] at hk
      interval_cases k
      rfl
    | some q => rw [chainLen] at hm; omega
  | succ m ihm =>
    rintro ⟨s, p, a, g, h⟩ hm
    cases p with
    | none => rw [chainLen] at hm; omega
    | some q =>
      have hq : chainLen q = m := by rw [chainLen] at hm; omega
      obtain ⟨ih1, ih2⟩ := ihm q hq
      have hcl : chainLen (Node.mk s (some q) a g h) = chainLen q + 1 := rfl
      have hrp : reconstruct_path (Node.mk s (some q) a g h) =
          reconstruct_path q ++ [(s, a)] := rfl
      constructor
      · rw [hrp, List.length_append, ih1, hcl]
        rfl
      · intro k hk
        rw [hcl] at hk
        rcases Nat.lt_or_ge k (chainLen q + 1) with hlt | hge
        · have hk' : k ≤ chainLen q := by omega
          have hidx : k < (reconstruct_path q).length := by rw [ih1]; omega
          rw [hrp, List.get?_append hidx, ih2 k hk']
          have ha : ancestorAt (Node.mk s (some q) a g h)
              (chainLen (Node.mk s (some q) a g h) - k) =
              ancestorAt q (chainLen q - k) := by
            rw [hcl]
            have : chainLen q + 1 - k = (chainLen q - k) + 1 := by omega
            rw [this]
            rfl
          rw [ha]
        · have hk0 : k = chainLen q + 1 := by omega
          subst hk0
          have hidx : (reconstruct_path q).length = chainLen q + 1 := ih1
          rw [hrp]
          have : (reconstruct_path q ++ [(s, a)]).get? (chainLen q + 1) =
              some (s, a) := by
            rw [List.get?_append_right (by omega)]
            rw [hidx]
            simp
          rw [this, hcl]
          have h0 : chainLen q + 1 - (chainLen q + 1) = 0 := by omega
          rw [h0]
          have : ¬ (chainLen q + 1 = 0) := by omega
          simp [ancestorAt, Node.state, Node.action, this]

/-- Closed witness for C7 on a concrete two-move chain. -/
theorem reconstruct_path_spec_witness :
    (reconstruct_path (Node.mk [[1, 2], [3, 0]]
      (some (Node.mk [[1, 2], [0, 3]]
        (some (Node.mk [[0, 2], [1, 3]] none none 0 4))
        (some ((0, 0), (1, 0))) 1 2))
      (some ((1, 0), (1, 1))) 2 0)).length = 3 ∧
    (reconstruct_path (Node.mk [[1, 2], [3, 0]]
      (some (Node.mk [[1, 2], [0, 3]]
        (some (Node.mk [[0, 2], [1, 3]] none none 0 4))
        (some ((0, 0), (1, 0))) 1 2))
      (some ((1, 0), (1, 1))) 2 0)).get? 0 =
      some ([[0, 2], [1, 3]], none) := by
  have h := reconstruct_path_spec (Node.mk [[1, 2], [3, 0]]
    (some (Node.mk [[1, 2], [0, 3]]
      (some (Node.mk [[0, 2], [1, 3]] none none 0 4))
      (some ((0, 0), (1, 0))) 1 2))
    (some ((1, 0), (1, 1))) 2 0)
  exact ⟨h.1, by simpa using h.2 0 (by decide)⟩

/-! ## Claim C4: zero-distance base case -/

/-- Claim C4: for any goal state and any heuristic, `solve(goal, goal)`
succeeds immediately with the single-entry path `[(goal, none)]`, move
count `0` (and one evaluated state). -/
theorem solve_goal_goal (goal : PState) (h : PState → PState → Nat)
    (fuel : Nat) :
    solve goal goal h (fuel + 1) = some (some [(goal, none)], 0, 1) := by
  unfold solve initConfig
  rw [loopIter]
  unfold stepLoop
  simp [extractMin, Node.state, state_to_tuple, reconstruct_path]

/-! ## Claim C6: exhaustion returns an explicit empty result -/

/-- Claim C6: whenever the frontier is empty, the loop returns the
ordinary value `(none, 0, statesEvaluated)` — the caller receives no
path, a zero move count and the number of states evaluated so far, not
an exception. -/
theorem frontier_exhaustion (goal : PState) (h : PState → PState → Nat)
    (c : Config) (fuel : Nat) (hc : c.openL = []) :
    loopIter goal h (fuel + 1) c = .inr ((none, 0, c.evaluated), c) := by
  rw [loopIter]
  unfold stepLoop
  rw [hc]
  rfl

/-- Closed witness for C6 at a concrete exhausted configuration. -/
theorem frontier_exhaustion_witness :
    loopIter [[1, 2], [3, 0]] manhattan_distance 3 ⟨[], [], [], 5⟩ =
      .inr ((none, 0, 5), ⟨[], [], [], 5⟩) :=
  frontier_exhaustion [[1, 2], [3, 0]] manhattan_distance ⟨[], [], [], 5⟩ 2 rfl

/-! ## Claim C2: admissibility of Enhanced Manhattan (refuted) -/

theorem reachN_of_runActions :
    ∀ (acts : List Action) (s t : PState), runActions s acts = some t →
      ReachN acts.length s t := by
  intro acts
  induction acts with
  | nil =>
    intro s t h
    rw [runActions] at h
    cases h
    exact rfl
  | cons a as ih =>
    intro s t h
    rw [runActions] at h
    split at h
    · exact ⟨do_action s a, ⟨a, by assumption, rfl⟩, ih _ _ h⟩
    · cases h

theorem exists_isDist {n : Nat} {s t : PState} (h : ReachN n s t) :
    ∃ d, IsDist s t d ∧ d ≤ n := by
  classical
  have hne : ∃ m, ReachN m s t := ⟨n, h⟩
  exact ⟨Nat.find hne, ⟨Nat.find_spec hne, fun m hm => Nat.find_min' hne hm⟩,
    Nat.find_min' hne h⟩

/-- The standard 3×3 goal. -/
def goal3 : PState := [[1, 2, 3], [4, 5, 6], [7, 8, 0]]

/-- A state solvable in 26 moves on which `enhanced_manhattan` returns
28: the naive per-pair linear-conflict penalty overcounts. -/
def s26 : PState := [[3, 8, 1], [6, 5, 4], [0, 2, 7]]

/-- A legal 26-move solution of `s26`. -/
def p26 : List Action :=
  [((2,0),(1,0)), ((1,0),(1,1)), ((1,1),(1,2)), ((1,2),(0,2)),
   ((0,2),(0,1)), ((0,1),(0,0)), ((0,0),(1,0)), ((1,0),(1,1)),
   ((1,1),(1,2)), ((1,2),(0,2)), ((0,2),(0,1)), ((0,1),(1,1)),
   ((1,1),(2,1)), ((2,1),(2,0)), ((2,0),(1,0)), ((1,0),(0,0)),
   ((0,0),(0,1)), ((0,1),(1,1)), ((1,1),(2,1)), ((2,1),(2,2)),
   ((2,2),(1,2)), ((1,2),(1,1)), ((1,1),(1,0)), ((1,0),(2,0)),
   ((2,0),(2,1)), ((2,1),(2,2))]

/-- A legal 26-move scramble from the goal to `s26` (so `s26` is in the
goal's reachable component). -/
def q26 : List Action :=
  [((2,2),(2,1)), ((2,1),(2,0)), ((2,0),(1,0)), ((1,0),(1,1)),
   ((1,1),(1,2)), ((1,2),(2,2)), ((2,2),(2,1)), ((2,1),(1,1)),
   ((1,1),(0,1)), ((0,1),(0,0)), ((0,0),(1,0)), ((1,0),(2,0)),
   ((2,0),(2,1)), ((2,1),(1,1)), ((1,1),(0,1)), ((0,1),(0,2)),
   ((0,2),(1,2)), ((1,2),(1,1)), ((1,1),(1,0)), ((1,0),(0,0)),
   ((0,0),(0,1)), ((0,1),(0,2)), ((0,2),(1,2)), ((1,2),(1,1)),
   ((1,1),(1,0)), ((1,0),(2,0))]

/-- Claim C2 is false of the code: on the reachable state `s26` the
Enhanced Manhattan heuristic returns 28, yet a legal 26-move solution
exists, so the heuristic strictly exceeds the true optimal distance
(the notebook documents both heuristics as admissible, so this is a bug
in `enhanced_manhattan`'s per-pair conflict counting). -/
theorem enhanced_manhattan_inadmissible :
    enhanced_manhattan s26 goal3 = 28 ∧
    runActions s26 p26 = some goal3 ∧ p26.length = 26 ∧
    runActions goal3 q26 = some s26 ∧ q26.length = 26 ∧
    ReachN 26 s26 goal3 ∧ Reachable goal3 s26 ∧
    ∃ d, IsDist s26 goal3 d ∧ d < enhanced_manhattan s26 goal3 := by
  have hrun : runActions s26 p26 = some goal3 := by decide
  have hrev : runActions goal3 q26 = some s26 := by decide
  have hreach : ReachN 26 s26 goal3 := reachN_of_runActions p26 s26 goal3 hrun
  have hval : enhanced_manhattan s26 goal3 = 28 := by decide
  refine ⟨hval, hrun, rfl, hrev, rfl, hreach,
    ⟨26, reachN_of_runActions q26 goal3 s26 hrev⟩, ?_⟩
  obtain ⟨d, hd, hle⟩ := exists_isDist hreach
  exact ⟨d, hd, by omega⟩

/-! ## Claim C3: the `states_evaluated` counter -/

/-- The evaluated counter at a point of the run (whether or not the
loop has returned). -/
def evAfter : Config ⊕ (Result × Config) → Nat
  | .inl c => c.evaluated
  | .inr (_, c) => c.evaluated

theorem evaluated_le_evAfter (goal : PState) (h : PState → PState → Nat) :
    ∀ (n : Nat) (c : Config), c.evaluated ≤ evAfter (loopIter goal h n c) := by
  intro n
  induction n with
  | zero => intro c; exact Nat.le_refl _
  | succ n ih =>
    intro c
    rw [loopIter]
    unfold stepLoop
    cases hext : extractMin c.openL with
    | none => exact Nat.le_refl _
    | some pr =>
      obtain ⟨cur, rest⟩ := pr
      by_cases hck : state_to_tuple cur.state ∈ c.closed
      · simp only [hck, if_true]
        exact ih ⟨rest, c.gs, c.closed, c.evaluated⟩
      · simp only [hck, if_false]
        by_cases hg : cur.state = goal
        · simp only [hg, if_true]
          exact Nat.le_succ _
        · simp only [hg, if_false]
          refine Nat.le_trans (Nat.le_succ _) ?_
          exact ih ⟨((available_actions cur.state).foldl
            (processAction goal h cur (state_to_tuple cur.state :: c.closed))
            (rest, c.gs)).1,
            ((available_actions cur.state).foldl
            (processAction goal h cur (state_to_tuple cur.state :: c.closed))
            (rest, c.gs)).2,
            state_to_tuple cur.state :: c.closed, c.evaluated + 1⟩

theorem evAfter_monotone (goal : PState) (h : PState → PState → Nat) :
    ∀ (n m : Nat) (c : Config), n ≤ m →
      evAfter (loopIter goal h n c) ≤ evAfter (loopIter goal h m c) := by
  intro n
  induction n with
  | zero =>
    intro m c _
    exact evaluated_le_evAfter goal h m c
  | succ n ih =>
    intro m c hnm
    obtain ⟨m', rfl⟩ : ∃ m', m = m' + 1 := ⟨m - 1, by omega⟩
    rw [loopIter]
    conv_rhs => rw [loopIter]
    cases hstep : stepLoop goal h c with
    | cont c' => exact ih m' c' (by omega)
    | done r c' => exact Nat.le_refl _

/-- Run invariant: at every loop entry the evaluated counter equals the
number of (distinct) keys inserted into the closed set; a return may
exceed it by at most one. -/
theorem loopIter_closed_inv (goal : PState) (h : PState → PState → Nat) :
    ∀ (n : Nat) (c : Config),
      c.evaluated = c.closed.length → c.closed.Nodup →
      (match loopIter goal h n c with
       | .inl c' => c'.evaluated = c'.closed.length ∧ c'.closed.Nodup
       | .inr (r, c') => r.2.2 = c'.evaluated ∧ c'.closed.Nodup ∧
           c'.evaluated ≤ c'.closed.length + 1) := by
  intro n
  induction n with
  | zero => intro c hc hd; exact ⟨hc, hd⟩
  | succ n ih =>
    intro c hc hd
    rw [loopIter]
    unfold stepLoop
    cases hext : extractMin c.openL with
    | none => exact ⟨rfl, hd, by omega⟩
    | some pr =>
      obtain ⟨cur, rest⟩ := pr
      by_cases hck : state_to_tuple cur.state ∈ c.closed
      · simp only [hck, if_true]
        exact ih _ hc hd
      · simp only [hck, if_false]
        by_cases hg : cur.state = goal
        · simp only [hg, if_true]
          exact ⟨trivial, hd, by omega⟩
        · simp only [hg, if_false]
          exact ih _ (by simp [hc]) (List.nodup_cons.mpr ⟨hck, hd⟩)

/-- Claim C3 (amended): during a run the `states_evaluated` counter
never decreases, at every loop entry it equals the number of distinct
state-keys inserted into the closed set so far, and at a return it
exceeds that number by at most one (exactly one on success: the final
goal pop is counted but its key is never inserted). -/
theorem statesEvaluated_monotone_bounded (init goal : PState)
    (h : PState → PState → Nat) (n m : Nat) (hnm : n ≤ m) :
    evAfter (loopIter goal h n (initConfig init goal h)) ≤
      evAfter (loopIter goal h m (initConfig init goal h)) ∧
    (match loopIter goal h n (initConfig init goal h) with
     | .inl c => c.evaluated = c.closed.length ∧ c.closed.Nodup
     | .inr (r, c) => r.2.2 = c.evaluated ∧ c.closed.Nodup ∧
         c.evaluated ≤ c.closed.length + 1) :=
  ⟨evAfter_monotone goal h n m _ hnm,
   loopIter_closed_inv goal h n (initConfig init goal h) rfl List.nodup_nil⟩

/-- The 2×2 goal state, used for concrete witnesses. -/
def goal2x2 : PState := [[1, 2], [3, 0]]

/-- Closed witness for the amended C3. -/
theorem statesEvaluated_monotone_bounded_witness :
    evAfter (loopIter goal2x2 manhattan_distance 0
        (initConfig goal2x2 goal2x2 manhattan_distance)) ≤
      evAfter (loopIter goal2x2 manhattan_distance 1
        (initConfig goal2x2 goal2x2 manhattan_distance)) :=
  (statesEvaluated_monotone_bounded goal2x2 goal2x2 manhattan_distance 0 1
    (by omega)).1

/-- Counterexample to C3 as stated: on the instant-success run
`solve(goal, goal)` the returned `states_evaluated` is `1`, but no key
is ever inserted into the closed set (the final configuration's closed
set is empty), so the counter exceeds the number of inserted keys. -/
theorem statesEvaluated_exceeds_closed_counterexample :
    loopIter goal2x2 manhattan_distance 1
        (initConfig goal2x2 goal2x2 manhattan_distance) =
      .inr ((some [(goal2x2, none)], 0, 1),
        ⟨[], [(state_to_tuple goal2x2, 0)], [], 1⟩) ∧
    ¬ ((1 : Nat) ≤ ([] : List (List Nat)).length) := by
  constructor
  · rfl
  · simp

/-! ## Claim C1: optimality of the returned move count

The development below proves the classic A*-with-lazy-closed-set
optimality argument for the embedded `solve`: whenever the loop returns
a path (which happens exactly when it first pops a node whose state
equals the goal), the returned move count is the true shortest-path
distance from the initial state to the goal. -/

theorem stepTo_dims {s t : PState} (h : StepTo s t) : dims t = dims s := by
  obtain ⟨a, -, rfl⟩ := h
  exact dims_do_action s a

theorem reachN_dims {n : Nat} {s t : PState} (h : ReachN n s t) :
    dims t = dims s := by
  induction n generalizing s with
  | zero => rw [show t = s from h.symm]
  | succ n ih =>
    obtain ⟨u, hsu, hut⟩ := h
    rw [ih hut, stepTo_dims hsu]

theorem reachN_trans {m n : Nat} {s u t : PState} (h1 : ReachN m s u)
    (h2 : ReachN n u t) : ReachN (m + n) s t := by
  induction m generalizing s with
  | zero => rw [show s = u from h1, Nat.zero_add]; exact h2
  | succ m ih =>
    obtain ⟨w, hsw, hwu⟩ := h1
    have h3 : ReachN ((m + n) + 1) s t := ⟨w, hsw, ih hwu⟩
    rw [show m + 1 + n = (m + n) + 1 from by omega]
    exact h3

theorem reachN_snoc {n : Nat} {s t : PState} :
    ReachN (n + 1) s t ↔ ∃ u, ReachN n s u ∧ StepTo u t := by
  induction n generalizing s with
  | zero =>
    constructor
    · rintro ⟨u, hsu, hut⟩
      exact ⟨s, rfl, by rw [show t = u from hut.symm] at *; exact hsu⟩
    · rintro ⟨u, hsu, hut⟩
      exact ⟨t, by rw [show s = u from hsu] at *; exact hut, rfl⟩
  | succ n ih =>
    constructor
    · rintro ⟨u, hsu, hut⟩
      obtain ⟨w, huw, hwt⟩ := ih.mp hut
      exact ⟨w, ⟨u, hsu, huw⟩, hwt⟩
    · rintro ⟨u, ⟨w, hsw, hwu⟩, hut⟩
      exact ⟨w, hsw, ih.mpr ⟨u, hwu, hut⟩⟩

theorem isDist_unique {s t : PState} {a b : Nat} (ha : IsDist s t a)
    (hb : IsDist s t b) : a = b :=
  Nat.le_antisymm (ha.2 b hb.1) (hb.2 a ha.1)

/-- Consistency chained along a path: a consistent heuristic changes by
at most one per move. -/
theorem heuristic_chain {goal : PState} {h : PState → PState → Nat}
    (Hcons : ∀ s a, a ∈ available_actions s →
      h s goal ≤ h (do_action s a) goal + 1)
    {k : Nat} {s t : PState} (hr : ReachN k s t) :
    h s goal ≤ k + h t goal := by
  induction k generalizing s with
  | zero => rw [show s = t from hr]; omega
  | succ k ih =>
    obtain ⟨u, ⟨a, ha, hau⟩, hut⟩ := hr
    have h1 : h s goal ≤ h u goal + 1 := by
      rw [← hau]; exact Hcons s a ha
    have h2 : h u goal ≤ k + h t goal := ih hut
    omega

theorem state_to_tuple_inj {s t : PState} (hd : dims s = dims t)
    (hk : state_to_tuple s = state_to_tuple t) : s = t := by
  induction s generalizing t with
  | nil =>
    cases t with
    | nil => rfl
    | cons _ _ => simp [dims] at hd
  | cons r rs ih =>
    cases t with
    | nil => simp [dims] at hd
    | cons r' rs' =>
      simp only [dims, List.map_cons, List.cons.injEq] at hd
      simp only [state_to_tuple, List.flatten_cons] at hk
      obtain ⟨h1, h2⟩ := List.append_inj hk hd.1
      rw [h1, ih (by simpa [dims] using hd.2) h2]

theorem extractMin_eq_none {l : List Node} :
    extractMin l = none ↔ l = [] := by
  cases l with
  | nil => simp [extractMin]
  | cons x xs =>
    cases hx : extractMin xs with
    | none => simp [extractMin, hx]
    | some p =>
      obtain ⟨m, ys⟩ := p
      simp only [extractMin, hx]
      split <;> simp

theorem extractMin_perm {l : List Node} {m : Node} {rest : List Node}
    (h : extractMin l = some (m, rest)) : l.Perm (m :: rest) := by
  induction l generalizing m rest with
  | nil => simp [extractMin] at h
  | cons x xs ih =>
    cases hx : extractMin xs with
    | none =>
      have hxs : xs = [] := extractMin_eq_none.mp hx
      subst hxs
      simp only [extractMin] at h
      cases h
      exact List.Perm.refl _
    | some p =>
      obtain ⟨m', ys⟩ := p
      simp only [extractMin, hx] at h
      split at h
      · cases h
        exact List.Perm.refl _
      · cases h
        exact ((ih hx).cons x).trans (List.Perm.swap m x ys)

theorem extractMin_min {l : List Node} {m : Node} {rest : List Node}
    (h : extractMin l = some (m, rest)) :
    ∀ x ∈ l, m.f_cost ≤ x.f_cost := by
  induction l generalizing m rest with
  | nil => simp [extractMin] at h
  | cons x xs ih =>
    cases hx : extractMin xs with
    | none =>
      have hxs : xs = [] := extractMin_eq_none.mp hx
      subst hxs
      simp only [extractMin] at h
      cases h
      intro y hy
      rcases List.mem_cons.mp hy with rfl | hy'
      · exact Nat.le_refl _
      · cases hy'
    | some p =>
      obtain ⟨m', ys⟩ := p
      simp only [extractMin, hx] at h
      split at h
      · cases h
        intro y hy
        rcases List.mem_cons.mp hy with rfl | hy'
        · exact Nat.le_refl _
        · exact Nat.le_trans (by assumption) (ih hx y hy')
      · cases h
        intro y hy
        rcases List.mem_cons.mp hy with rfl | hy'
        · omega
        · exact ih hx y hy'

theorem gsFind_cons (k : List Nat) (v : Nat) (gs : GS) (q : List Nat) :
    gsFind ((k, v) :: gs) q = if q = k then some v else gsFind gs q := rfl

/-- Facts every node created by the engine satisfies: its `g_cost` is a
genuine path length from the start to its state, its `h_cost` is the
heuristic of its state, its state has the start's shape, and
reconstruction yields `g_cost + 1` entries. -/
def NodeOK (init goal : PState) (h : PState → PState → Nat) (nd : Node) :
    Prop :=
  ReachN nd.g_cost init nd.state ∧ nd.h_cost = h nd.state goal ∧
  dims nd.state = dims init ∧
  (reconstruct_path nd).length = nd.g_cost + 1

/-- The A* loop invariant (for the consistency-based optimality
argument). -/
structure Inv (init goal : PState) (h : PState → PState → Nat)
    (c : Config) : Prop where
  nodes : ∀ nd ∈ c.openL, NodeOK init goal h nd
  gsSound : ∀ k v, gsFind c.gs k = some v →
    ∃ s, dims s = dims init ∧ state_to_tuple s = k ∧ ReachN v init s
  closedOpt : ∀ s, dims s = dims init → state_to_tuple s ∈ c.closed →
    ∃ v, gsFind c.gs (state_to_tuple s) = some v ∧ IsDist init s v
  closedRelaxed : ∀ s t, dims s = dims init → state_to_tuple s ∈ c.closed →
    StepTo s t → ∀ ds, IsDist init s ds →
    ∃ v, gsFind c.gs (state_to_tuple t) = some v ∧ v ≤ ds + 1
  gsWitness : ∀ s v, dims s = dims init →
    gsFind c.gs (state_to_tuple s) = some v →
    state_to_tuple s ∈ c.closed ∨
      ∃ nd ∈ c.openL, nd.state = s ∧ nd.g_cost = v
  gsInit : gsFind c.gs (state_to_tuple init) = some 0
  openGs : ∀ nd ∈ c.openL,
    ∃ v, gsFind c.gs (state_to_tuple nd.state) = some v ∧ v ≤ nd.g_cost

/-- Case analysis of one step of the neighbour loop: the action is
skipped because its key is closed, skipped because its tentative `g`
does not improve, or recorded and pushed. -/
theorem processAction_trichotomy (goal : PState)
    (h : PState → PState → Nat) (cur : Node) (closed' : List (List Nat))
    (acc : List Node × GS) (a : Action) :
    (state_to_tuple (do_action cur.state a) ∈ closed' ∧
      processAction goal h cur closed' acc a = acc) ∨
    (state_to_tuple (do_action cur.state a) ∉ closed' ∧
      (∃ old, gsFind acc.2 (state_to_tuple (do_action cur.state a)) =
        some old ∧ old ≤ cur.g_cost + 1) ∧
      processAction goal h cur closed' acc a = acc) ∨
    (state_to_tuple (do_action cur.state a) ∉ closed' ∧
      (∀ old, gsFind acc.2 (state_to_tuple (do_action cur.state a)) =
        some old → cur.g_cost + 1 < old) ∧
      processAction goal h cur closed' acc a =
        (Node.mk (do_action cur.state a) (some cur) (some a)
            (cur.g_cost + 1) (h (do_action cur.state a) goal) :: acc.1,
         (state_to_tuple (do_action cur.state a), cur.g_cost + 1) ::
           acc.2)) := by
  unfold processAction
  by_cases hck : state_to_tuple (do_action cur.state a) ∈ closed'
  · exact Or.inl ⟨hck, by simp [hck]⟩
  · cases hgs : gsFind acc.2 (state_to_tuple (do_action cur.state a)) with
    | none =>
      refine Or.inr (Or.inr ⟨hck, ?_, ?_⟩)
      · intro old hold
        cases hold
      · simp [hck, hgs]
    | some old =>
      by_cases hle : old ≤ cur.g_cost + 1
      · refine Or.inr (Or.inl ⟨hck, ⟨old, rfl, hle⟩, ?_⟩)
        simp [hck, hgs, hle]
      · refine Or.inr (Or.inr ⟨hck, ?_, ?_⟩)
        · intro o ho
          cases ho
          omega
        · simp [hck, hgs, hle]

/-- One neighbour step only ever lowers recorded `g_scores` (and never
deletes an entry). -/
theorem processAction_gs_mono (goal : PState) (h : PState → PState → Nat)
    (cur : Node) (closed' : List (List Nat)) (acc : List Node × GS)
    (a : Action) (k : List Nat) (v : Nat) (hk : gsFind acc.2 k = some v) :
    ∃ v', gsFind (processAction goal h cur closed' acc a).2 k = some v' ∧
      v' ≤ v := by
  rcases processAction_trichotomy goal h cur closed' acc a with
    ⟨-, he⟩ | ⟨-, -, he⟩ | ⟨-, hold, he⟩ <;> rw [he]
  · exact ⟨v, hk, Nat.le_refl v⟩
  · exact ⟨v, hk, Nat.le_refl v⟩
  · rw [gsFind_cons]
    by_cases hkk : k = state_to_tuple (do_action cur.state a)
    · subst hkk
      exact ⟨cur.g_cost + 1, by simp, Nat.le_of_lt (hold v hk)⟩
    · exact ⟨v, by simp [hkk, hk], Nat.le_refl v⟩

/-- `g_scores` entries only get lower (and are never deleted) across the
whole neighbour loop. -/
theorem foldPA_gs_mono (goal : PState) (h : PState → PState → Nat)
    (cur : Node) (closed' : List (List Nat)) :
    ∀ (as : List Action) (acc : List Node × GS) (k : List Nat) (v : Nat),
      gsFind acc.2 k = some v →
      ∃ v', gsFind ((as.foldl (processAction goal h cur closed') acc)).2 k
        = some v' ∧ v' ≤ v := by
  intro as
  induction as with
  | nil => intro acc k v hk; exact ⟨v, hk, Nat.le_refl v⟩
  | cons a as ih =>
    intro acc k v hk
    obtain ⟨v1, hv1, hle1⟩ :=
      processAction_gs_mono goal h cur closed' acc a k v hk
    obtain ⟨v2, hv2, hle2⟩ :=
      ih (processAction goal h cur closed' acc a) k v1 hv1
    exact ⟨v2, hv2, Nat.le_trans hle2 hle1⟩

/-- The neighbour loop never touches keys that are in the closed set. -/
theorem foldPA_closed_keys (goal : PState) (h : PState → PState → Nat)
    (cur : Node) (closed' : List (List Nat)) :
    ∀ (as : List Action) (acc : List Node × GS) (k : List Nat),
      k ∈ closed' →
      gsFind ((as.foldl (processAction goal h cur closed') acc)).2 k =
        gsFind acc.2 k := by
  intro as
  induction as with
  | nil => intro acc k _; rfl
  | cons a as ih =>
    intro acc k hk
    rw [List.foldl_cons, ih _ k hk]
    rcases processAction_trichotomy goal h cur closed' acc a with
      ⟨-, he⟩ | ⟨-, -, he⟩ | ⟨hnc, -, he⟩ <;> rw [he]
    rw [gsFind_cons, if_neg]
    intro hkk
    exact hnc (hkk ▸ hk)

/-- A node pushed by the neighbour loop is well-formed when the

expanded node is. -/
theorem NodeOK_push {init goal : PState} {h : PState → PState → Nat}
    {cur : Node} (Hcur : NodeOK init goal h cur) {a : Action}
    (ha : a ∈ available_actions cur.state) :
    NodeOK init goal h (Node.mk (do_action cur.state a) (some cur)
      (some a) (cur.g_cost + 1) (h (do_action cur.state a) goal)) := by
  refine ⟨?_, rfl, ?_, ?_⟩
  · exact reachN_snoc.mpr ⟨cur.state, Hcur.1, ⟨a, ha, rfl⟩⟩
  · show dims (do_action cur.state a) = dims init
    rw [dims_do_action, Hcur.2.2.1]
  · show (reconstruct_path cur ++ [(do_action cur.state a, some a)]).length
      = (cur.g_cost + 1) + 1
    rw [List.length_append, Hcur.2.2.2]
    rfl

/-- The neighbour loop keeps every open node well-formed. -/
theorem foldPA_nodes {init goal : PState} {h : PState → PState → Nat}
    {cur : Node} (closed' : List (List Nat))
    (Hcur : NodeOK init goal h cur) :
    ∀ (as : List Action), (∀ a ∈ as, a ∈ available_actions cur.state) →
    ∀ (acc : List Node × GS), (∀ nd ∈ acc.1, NodeOK init goal h nd) →
    ∀ nd ∈ ((as.foldl (processAction goal h cur closed') acc)).1,
      NodeOK init goal h nd := by
  intro as
  induction as with
  | nil => intro _ acc hacc nd hnd; exact hacc nd hnd
  | cons a as ih =>
    intro hsub acc hacc
    rw [List.foldl_cons]
    refine ih (fun b hb => hsub b (List.mem_cons_of_mem a hb)) _ ?_
    rcases processAction_trichotomy goal h cur closed' acc a with
      ⟨-, he⟩ | ⟨-, -, he⟩ | ⟨-, -, he⟩ <;> rw [he]
    · exact hacc
    · exact hacc
    · intro nd hnd
      rcases List.mem_cons.mp hnd with rfl | hnd'
      · exact NodeOK_push Hcur (hsub a (List.mem_cons_self a as))
      · exact hacc nd hnd'

/-- The neighbour loop keeps `g_scores` sound: every recorded value is a
genuine path length to a state of the right shape with that key. -/
theorem foldPA_gsSound {init goal : PState} {h : PState → PState → Nat}
    {cur : Node} (closed' : List (List Nat))
    (Hcur : NodeOK init goal h cur) :
    ∀ (as : List Action), (∀ a ∈ as, a ∈ available_actions cur.state) →
    ∀ (acc : List Node × GS),
    (∀ k v, gsFind acc.2 k = some v →
      ∃ s, dims s = dims init ∧ state_to_tuple s = k ∧ ReachN v init s) →
    ∀ k v, gsFind ((as.foldl (processAction goal h cur closed') acc)).2 k
      = some v →
      ∃ s, dims s = dims init ∧ state_to_tuple s = k ∧ ReachN v init s := by
  intro as
  induction as with
  | nil => intro _ acc hacc; exact hacc
  | cons a as ih =>
    intro hsub acc hacc
    rw [List.foldl_cons]
    refine ih (fun b hb => hsub b (List.mem_cons_of_mem a hb)) _ ?_
    rcases processAction_trichotomy goal h cur closed' acc a with
      ⟨-, he⟩ | ⟨-, -, he⟩ | ⟨-, -, he⟩ <;> rw [he]
    · exact hacc
    · exact hacc
    · intro k v hk
      rw [gsFind_cons] at hk
      by_cases hkeq : k = state_to_tuple (do_action cur.state a)
      · rw [if_pos hkeq] at hk
        cases hk
        refine ⟨do_action cur.state a, ?_, hkeq.symm, ?_⟩
        · rw [dims_do_action, Hcur.2.2.1]
        · exact reachN_snoc.mpr ⟨cur.state, Hcur.1,
            ⟨a, hsub a (List.mem_cons_self a as), rfl⟩⟩
      · rw [if_neg hkeq] at hk
        exact hacc k v hk

/-- The neighbour loop keeps the open-witness invariant: every live
`g_scores` entry of a non-closed key is carried by some open node. -/
theorem foldPA_gsWitness {init goal : PState} {h : PState → PState → Nat}
    {cur : Node} (closed' : List (List Nat))
    (Hcur : NodeOK init goal h cur) :
    ∀ (as : List Action), (∀ a ∈ as, a ∈ available_actions cur.state) →
    ∀ (acc : List Node × GS),
    (∀ s v, dims s = dims init → gsFind acc.2 (state_to_tuple s) = some v →
      state_to_tuple s ∈ closed' ∨ ∃ nd ∈ acc.1, nd.state = s ∧ nd.g_cost = v) →
    ∀ s v, dims s = dims init →
      gsFind ((as.foldl (processAction goal h cur closed') acc)).2
        (state_to_tuple s) = some v →
      state_to_tuple s ∈ closed' ∨
        ∃ nd ∈ ((as.foldl (processAction goal h cur closed') acc)).1,
          nd.state = s ∧ nd.g_cost = v := by
  intro as
  induction as with
  | nil => intro _ acc hacc; exact hacc
  | cons a as ih =>
    intro hsub acc hacc
    rw [List.foldl_cons]
    refine ih (fun b hb => hsub b (List.mem_cons_of_mem a hb)) _ ?_
    rcases processAction_trichotomy goal h cur closed' acc a with
      ⟨-, he⟩ | ⟨-, -, he⟩ | ⟨-, -, he⟩ <;> rw [he]
    · exact hacc
    · exact hacc
    · intro s v hds hk
      rw [gsFind_cons] at hk
      split at hk
      · cases hk
        have hseq : s = do_action cur.state a := by
          refine state_to_tuple_inj ?_ (by assumption)
          rw [hds, dims_do_action, Hcur.2.2.1]
        refine Or.inr ⟨Node.mk (do_action cur.state a) (some cur) (some a)
          (cur.g_cost + 1) (h (do_action cur.state a) goal),
          List.mem_cons_self _ _, ?_, rfl⟩
        rw [hseq]
        rfl
      · rcases hacc s v hds hk with hin | ⟨nd, hnd, hnds, hndg⟩
        · exact Or.inl hin
        · exact Or.inr ⟨nd, List.mem_cons_of_mem _ hnd, hnds, hndg⟩

/-- The neighbour loop keeps every open node's `g` at or above the
recorded `g_score` of its key. -/
theorem foldPA_openGs {goal : PState} {h : PState → PState → Nat}
    {cur : Node} (closed' : List (List Nat)) :
    ∀ (as : List Action) (acc : List Node × GS),
    (∀ nd ∈ acc.1, ∃ v, gsFind acc.2 (state_to_tuple nd.state) = some v ∧
      v ≤ nd.g_cost) →
    ∀ nd ∈ ((as.foldl (processAction goal h cur closed') acc)).1,
      ∃ v, gsFind ((as.foldl (processAction goal h cur closed') acc)).2
        (state_to_tuple nd.state) = some v ∧ v ≤ nd.g_cost := by
  intro as
  induction as with
  | nil => intro acc hacc; exact hacc
  | cons a as ih =>
    intro acc hacc
    rw [List.foldl_cons]
    refine ih _ ?_
    rcases processAction_trichotomy goal h cur closed' acc a with
      ⟨-, he⟩ | ⟨-, -, he⟩ | ⟨-, hall, he⟩ <;> rw [he]
    · exact hacc
    · exact hacc
    · intro nd hnd
      rcases List.mem_cons.mp hnd with rfl | hnd'
      · exact ⟨cur.g_cost + 1, by simp [gsFind_cons, Node.state],
          Nat.le_refl _⟩
      · obtain ⟨v, hv, hvle⟩ := hacc nd hnd'
        rw [gsFind_cons]
        by_cases hkk : state_to_tuple nd.state =
            state_to_tuple (do_action cur.state a)
        · rw [if_pos hkk]
          rw [hkk] at hv
          exact ⟨cur.g_cost + 1, rfl,
            Nat.le_trans (Nat.le_of_lt (hall v hv)) hvle⟩
        · rw [if_neg hkk]
          exact ⟨v, hv, hvle⟩

/-- The neighbour loop never overrides the start key's recorded `0`
(every tentative `g` is positive and so never an improvement). -/
theorem foldPA_gsInit {init goal : PState} {h : PState → PState → Nat}
    {cur : Node} (closed' : List (List Nat)) :
    ∀ (as : List Action) (acc : List Node × GS),
      gsFind acc.2 (state_to_tuple init) = some 0 →
      gsFind ((as.foldl (processAction goal h cur closed') acc)).2
        (state_to_tuple init) = some 0 := by
  intro as
  induction as with
  | nil => intro acc hacc; exact hacc
  | cons a as ih =>
    intro acc hacc
    rw [List.foldl_cons]
    refine ih _ ?_
    rcases processAction_trichotomy goal h cur closed' acc a with
      ⟨-, he⟩ | ⟨-, -, he⟩ | ⟨-, hall, he⟩ <;> rw [he]
    · exact hacc
    · exact hacc
    · rw [gsFind_cons]
      by_cases hkk : state_to_tuple init =
          state_to_tuple (do_action cur.state a)
      · rw [hkk] at hacc
        have := hall 0 hacc
        omega
      · rw [if_neg hkk]
        exact hacc

/-- After the neighbour loop, every neighbour of the expanded state is
relaxed: its key is closed, or its recorded `g_score` is at most the
expanded node's `g` plus one. -/
theorem foldPA_relaxes {goal : PState} {h : PState → PState → Nat}
    {cur : Node} (closed' : List (List Nat)) :
    ∀ (as : List Action) (acc : List Node × GS), ∀ a ∈ as,
      state_to_tuple (do_action cur.state a) ∈ closed' ∨
      ∃ v, gsFind ((as.foldl (processAction goal h cur closed') acc)).2
        (state_to_tuple (do_action cur.state a)) = some v ∧
        v ≤ cur.g_cost + 1 := by
  intro as
  induction as with
  | nil => intro acc a ha; cases ha
  | cons b as ih =>
    intro acc a ha
    rw [List.foldl_cons]
    rcases List.mem_cons.mp ha with rfl | ha'
    · rcases processAction_trichotomy goal h cur closed' acc a with
        ⟨hin, he⟩ | ⟨-, ⟨old, hold, holdle⟩, he⟩ | ⟨-, hall, he⟩ <;>
        rw [he]
      · exact Or.inl hin
      · obtain ⟨v', hv', hle'⟩ :=
          foldPA_gs_mono goal h cur closed' as acc _ old hold
        exact Or.inr ⟨v', hv', Nat.le_trans hle' holdle⟩
      · obtain ⟨v', hv', hle'⟩ := foldPA_gs_mono goal h cur closed' as
          (Node.mk (do_action cur.state a) (some cur) (some a)
            (cur.g_cost + 1) (h (do_action cur.state a) goal) :: acc.1,
           (state_to_tuple (do_action cur.state a), cur.g_cost + 1) ::
             acc.2) _ (cur.g_cost + 1) (by rw [gsFind_cons, if_pos rfl])
        exact Or.inr ⟨v', hv', hle'⟩
    · exact ih _ a ha'

/-- Frontier-covering property: as long as a reachable state `t` is not
closed, some open node sits (with optimal `g`) on a shortest path to
`t`. -/
theorem open_witness {init goal : PState} {h : PState → PState → Nat}
    {c : Config} (I : Inv init goal h c) :
    ∀ (m : Nat) (t : PState), IsDist init t m →
      state_to_tuple t ∉ c.closed →
      ∃ nd ∈ c.openL, ∃ i, i ≤ m ∧ nd.g_cost ≤ i ∧
        ReachN (m - i) nd.state t := by
  intro m
  induction m using Nat.strong_induction_on with
  | _ m ihm =>
    intro t hd hnc
    cases m with
    | zero =>
      have ht : init = t := hd.1
      subst ht
      rcases I.gsWitness init 0 rfl I.gsInit with hin | ⟨nd, hnd, hnds, hndg⟩
      · exact absurd hin hnc
      · exact ⟨nd, hnd, 0, Nat.le_refl 0, by omega,
          by rw [hnds]; exact rfl⟩
    | succ m' =>
      obtain ⟨u, hru, hstep⟩ := reachN_snoc.mp hd.1
      have hdu : IsDist init u m' := by
        refine ⟨hru, fun j hj => ?_⟩
        have := hd.2 (j + 1) (reachN_snoc.mpr ⟨u, hj, hstep⟩)
        omega
      have hdimu : dims u = dims init := reachN_dims hru
      by_cases hcu : state_to_tuple u ∈ c.closed
      · obtain ⟨v, hv, hvle⟩ :=
          I.closedRelaxed u t hdimu hcu hstep m' hdu
        have hdt : dims t = dims init := reachN_dims hd.1
        rcases I.gsWitness t v hdt hv with hin | ⟨nd, hnd, hnds, hndg⟩
        · exact absurd hin hnc
        · refine ⟨nd, hnd, m' + 1, Nat.le_refl _, by omega, ?_⟩
          rw [Nat.sub_self, hnds]
          exact rfl
      · obtain ⟨nd, hnd, i, hi, hgi, hreach⟩ :=
          ihm m' (by omega) u hdu hcu
        refine ⟨nd, hnd, i, by omega, hgi, ?_⟩
        have : ReachN ((m' - i) + 1) nd.state t :=
          reachN_snoc.mpr ⟨u, hreach, hstep⟩
        rw [show m' + 1 - i = (m' - i) + 1 from by omega]
        exact this

/-- When a non-closed node is popped from the frontier (the heap pop
returns a node of minimal `f`), its `g` is the true shortest-path
distance to its state — the heart of the consistent-heuristic A*
argument. -/
theorem pop_optimal {init goal : PState} {h : PState → PState → Nat}
    {c : Config} (I : Inv init goal h c)
    (Hcons : ∀ s a, a ∈ available_actions s →
      h s goal ≤ h (do_action s a) goal + 1)
    {p : Node} {rest : List Node}
    (hext : extractMin c.openL = some (p, rest))
    (hnc : state_to_tuple p.state ∉ c.closed) :
    IsDist init p.state p.g_cost := by
  have hpin : p ∈ c.openL :=
    (extractMin_perm hext).symm.subset (List.mem_cons_self p rest)
  have hpok := I.nodes p hpin
  obtain ⟨dp, hdp, hdple⟩ := exists_isDist hpok.1
  obtain ⟨nd, hnd, i, hi, hgi, hreach⟩ := open_witness I dp p.state hdp hnc
  have hndok := I.nodes nd hnd
  have hmin : p.f_cost ≤ nd.f_cost := extractMin_min hext nd hnd
  have hchain : h nd.state goal ≤ (dp - i) + h p.state goal :=
    heuristic_chain Hcons hreach
  have hfp : p.f_cost = p.g_cost + h p.state goal := by
    rw [Node.f_cost, hpok.2.1]
  have hfnd : nd.f_cost = nd.g_cost + h nd.state goal := by
    rw [Node.f_cost, hndok.2.1]
  have hgle : p.g_cost ≤ dp := by omega
  exact ⟨hpok.1, fun m hm => Nat.le_trans hgle (hdp.2 m hm)⟩

/-- Discarding a stale (already closed) popped node preserves the
invariant. -/
theorem inv_discard {init goal : PState} {h : PState → PState → Nat}
    {c : Config} (I : Inv init goal h c) {p : Node} {rest : List Node}
    (hext : extractMin c.openL = some (p, rest))
    (hcl : state_to_tuple p.state ∈ c.closed) :
    Inv init goal h ⟨rest, c.gs, c.closed, c.evaluated⟩ := by
  have hrest : ∀ nd ∈ rest, nd ∈ c.openL := fun nd hnd =>
    (extractMin_perm hext).symm.subset (List.mem_cons_of_mem _ hnd)
  refine ⟨fun nd hnd => I.nodes nd (hrest nd hnd), I.gsSound, I.closedOpt,
    I.closedRelaxed, ?_, I.gsInit,
    fun nd hnd => I.openGs nd (hrest nd hnd)⟩
  intro s v hds hv
  rcases I.gsWitness s v hds hv with hin | ⟨nd, hnd, hnds, hndg⟩
  · exact Or.inl hin
  · rcases List.mem_cons.mp ((extractMin_perm hext).subset hnd) with
      rfl | hnd'
    · exact Or.inl (hnds ▸ hcl)
    · exact Or.inr ⟨nd, hnd', hnds, hndg⟩

/-- Expanding a non-closed popped node preserves the invariant (its `g`
is optimal by `pop_optimal`, its key is added to the closed set and all
its neighbours are relaxed). -/
theorem inv_expand {init goal : PState} {h : PState → PState → Nat}
    {c : Config} (I : Inv init goal h c)
    (Hcons : ∀ s a, a ∈ available_actions s →
      h s goal ≤ h (do_action s a) goal + 1)
    {p : Node} {rest : List Node}
    (hext : extractMin c.openL = some (p, rest))
    (hnc : state_to_tuple p.state ∉ c.closed) :
    Inv init goal h
      ⟨((available_actions p.state).foldl
          (processAction goal h p (state_to_tuple p.state :: c.closed))
          (rest, c.gs)).1,
       ((available_actions p.state).foldl
          (processAction goal h p (state_to_tuple p.state :: c.closed))
          (rest, c.gs)).2,
       state_to_tuple p.state :: c.closed, c.evaluated + 1⟩ := by
  have hpin : p ∈ c.openL :=
    (extractMin_perm hext).symm.subset (List.mem_cons_self p rest)
  have hpok := I.nodes p hpin
  have hpd : IsDist init p.state p.g_cost := pop_optimal I Hcons hext hnc
  have hrest : ∀ nd ∈ rest, nd ∈ c.openL := fun nd hnd =>
    (extractMin_perm hext).symm.subset (List.mem_cons_of_mem _ hnd)
  have hgsp : gsFind c.gs (state_to_tuple p.state) = some p.g_cost := by
    obtain ⟨v, hv, hvle⟩ := I.openGs p hpin
    obtain ⟨s', hds', hks', hrs'⟩ := I.gsSound _ v hv
    have hsp : s' = p.state :=
      state_to_tuple_inj (hds'.trans hpok.2.2.1.symm) hks'
    subst hsp
    have hvp : v = p.g_cost := Nat.le_antisymm hvle (hpd.2 v hrs')
    rw [← hvp]
    exact hv
  refine ⟨?_, ?_, ?_, ?_, ?_, ?_, ?_⟩
  · exact foldPA_nodes _ hpok _ (fun a ha => ha) (rest, c.gs)
      (fun nd hnd => I.nodes nd (hrest nd hnd))
  · exact foldPA_gsSound _ hpok _ (fun a ha => ha) (rest, c.gs) I.gsSound
  · intro s hds hsk
    rcases List.mem_cons.mp hsk with hkeq | htail
    · have hseq : s = p.state :=
        state_to_tuple_inj (hds.trans hpok.2.2.1.symm) hkeq
      refine ⟨p.g_cost, ?_, hseq ▸ hpd⟩
      rw [hkeq,
        foldPA_closed_keys goal h p _ _ (rest, c.gs) _
          (List.mem_cons_self _ _)]
      exact hgsp
    · obtain ⟨v, hv, hdv⟩ := I.closedOpt s hds htail
      refine ⟨v, ?_, hdv⟩
      rw [foldPA_closed_keys goal h p _ _ (rest, c.gs) _
        (List.mem_cons_of_mem _ htail)]
      exact hv
  · intro s t hds hsk hstep ds hdss
    rcases List.mem_cons.mp hsk with hkeq | htail
    · have hseq : s = p.state :=
        state_to_tuple_inj (hds.trans hpok.2.2.1.symm) hkeq
      have hdsg : ds = p.g_cost := isDist_unique (hseq ▸ hdss) hpd
      obtain ⟨a, ha, hat⟩ := hstep
      have ha' : a ∈ available_actions p.state := hseq ▸ ha
      have hat' : do_action p.state a = t := hseq ▸ hat
      rcases foldPA_relaxes (state_to_tuple p.state :: c.closed)
        (available_actions p.state) (rest, c.gs) a ha' with
        hin | ⟨v, hv, hvle⟩
      · rw [hat'] at hin
        rcases List.mem_cons.mp hin with hteq | htin
        · refine ⟨p.g_cost, ?_, by omega⟩
          rw [hteq, foldPA_closed_keys goal h p _ _ (rest, c.gs) _
            (List.mem_cons_self _ _)]
          exact hgsp
        · have hdt : dims t = dims init := by
            rw [stepTo_dims ⟨a, ha, hat⟩, hds]
          obtain ⟨vt, hvt, hdtv⟩ := I.closedOpt t hdt htin
          refine ⟨vt, ?_, ?_⟩
          · rw [foldPA_closed_keys goal h p _ _ (rest, c.gs) _
              (List.mem_cons_of_mem _ htin)]
            exact hvt
          · exact hdtv.2 (ds + 1)
              (reachN_snoc.mpr ⟨s, hdss.1, ⟨a, ha, hat⟩⟩)
      · rw [hat'] at hv
        rw [hdsg]
        exact ⟨v, hv, hvle⟩
    · obtain ⟨v, hv, hvle⟩ := I.closedRelaxed s t hds htail hstep ds hdss
      obtain ⟨v', hv', hvle'⟩ :=
        foldPA_gs_mono goal h p _ (available_actions p.state)
          (rest, c.gs) _ v hv
      exact ⟨v', hv', by omega⟩
  · refine foldPA_gsWitness _ hpok _ (fun a ha => ha) (rest, c.gs) ?_
    intro s v hds hv
    rcases I.gsWitness s v hds hv with hin | ⟨nd, hnd, hnds, hndg⟩
    · exact Or.inl (List.mem_cons_of_mem _ hin)
    · rcases List.mem_cons.mp ((extractMin_perm hext).subset hnd) with
        rfl | hnd'
      · exact Or.inl (by rw [← hnds]; exact List.mem_cons_self _ _)
      · exact Or.inr ⟨nd, hnd', hnds, hndg⟩
  · exact foldPA_gsInit _ _ (rest, c.gs) I.gsInit
  · exact foldPA_openGs _ _ (rest, c.gs)
      (fun nd hnd => I.openGs nd (hrest nd hnd))

/-- The invariant holds at the initial configuration of `solve`. -/
theorem inv_init (init goal : PState) (h : PState → PState → Nat) :
    Inv init goal h (initConfig init goal h) := by
  refine ⟨?_, ?_, ?_, ?_, ?_, ?_, ?_⟩
  · intro nd hnd
    rcases List.mem_singleton.mp hnd with rfl
    exact ⟨rfl, rfl, rfl, rfl⟩
  · intro k v hv
    rw [show (initConfig init goal h).gs = [(state_to_tuple init, 0)]
      from rfl, gsFind_cons] at hv
    by_cases hk : k = state_to_tuple init
    · rw [if_pos hk] at hv
      cases hv
      exact ⟨init, rfl, hk.symm, rfl⟩
    · rw [if_neg hk] at hv
      cases hv
  · intro s _ hsk
    cases hsk
  · intro s t _ hsk
    cases hsk
  · intro s v hds hv
    rw [show (initConfig init goal h).gs = [(state_to_tuple init, 0)]
      from rfl, gsFind_cons] at hv
    by_cases hk : state_to_tuple s = state_to_tuple init
    · rw [if_pos hk] at hv
      cases hv
      have hseq : s = init := state_to_tuple_inj hds hk
      exact Or.inr ⟨Node.mk init none none 0 (h init goal),
        List.mem_singleton.mpr rfl, hseq.symm, rfl⟩
    · rw [if_neg hk] at hv
      cases hv
  · rw [show (initConfig init goal h).gs = [(state_to_tuple init, 0)]
      from rfl, gsFind_cons, if_pos rfl]
  · intro nd hnd
    rcases List.mem_singleton.mp hnd with rfl
    exact ⟨0, by simp [initConfig, gsFind_cons, Node.state], Nat.le_refl 0⟩

/-! Equation lemmas for `stepLoop`, one per branch of the loop body. -/

theorem stepLoop_none {goal : PState} {h : PState → PState → Nat}
    {c : Config} (hext : extractMin c.openL = none) :
    stepLoop goal h c = .done (none, 0, c.evaluated) c := by
  unfold stepLoop
  rw [hext]

theorem stepLoop_closed {goal : PState} {h : PState → PState → Nat}
    {c : Config} {p : Node} {rest : List Node}
    (hext : extractMin c.openL = some (p, rest))
    (hcl : state_to_tuple p.state ∈ c.closed) :
    stepLoop goal h c = .cont ⟨rest, c.gs, c.closed, c.evaluated⟩ := by
  unfold stepLoop
  rw [hext]
  simp [hcl]

theorem stepLoop_goal {goal : PState} {h : PState → PState → Nat}
    {c : Config} {p : Node} {rest : List Node}
    (hext : extractMin c.openL = some (p, rest))
    (hncl : state_to_tuple p.state ∉ c.closed) (hg : p.state = goal) :
    stepLoop goal h c = .done (some (reconstruct_path p),
      (reconstruct_path p).length - 1, c.evaluated + 1)
      ⟨rest, c.gs, c.closed, c.evaluated + 1⟩ := by
  unfold stepLoop
  rw [hext]
  simp only [eq_false hncl, if_false, eq_true hg, if_true]

theorem stepLoop_expand {goal : PState} {h : PState → PState → Nat}
    {c : Config} {p : Node} {rest : List Node}
    (hext : extractMin c.openL = some (p, rest))
    (hncl : state_to_tuple p.state ∉ c.closed) (hg : p.state ≠ goal) :
    stepLoop goal h c = .cont
      ⟨((available_actions p.state).foldl
          (processAction goal h p (state_to_tuple p.state :: c.closed))
          (rest, c.gs)).1,
       ((available_actions p.state).foldl
          (processAction goal h p (state_to_tuple p.state :: c.closed))
          (rest, c.gs)).2,
       state_to_tuple p.state :: c.closed, c.evaluated + 1⟩ := by
  unfold stepLoop
  rw [hext]
  simp [hncl, hg]

/-- Invariant-based optimality of the loop: whenever the loop returns a
path, the returned move count is the true shortest-path distance from
the initial state to the goal. -/
theorem loopIter_optimal {init goal : PState} {h : PState → PState → Nat}
    (Hcons : ∀ s a, a ∈ available_actions s →
      h s goal ≤ h (do_action s a) goal + 1) :
    ∀ (fuel : Nat) (c : Config), Inv init goal h c →
    ∀ (path : List (PState × Option Action)) (mc ev : Nat) (c' : Config),
      loopIter goal h fuel c = .inr ((some path, mc, ev), c') →
      IsDist init goal mc := by
  intro fuel
  induction fuel with
  | zero =>
    intro c _ path mc ev c' hrun
    simp [loopIter] at hrun
  | succ fuel ih =>
    intro c I path mc ev c' hrun
    rw [loopIter] at hrun
    cases hext : extractMin c.openL with
    | none =>
      rw [stepLoop_none hext] at hrun
      simp at hrun
    | some pr =>
      obtain ⟨p, rest⟩ := pr
      by_cases hcl : state_to_tuple p.state ∈ c.closed
      · rw [stepLoop_closed hext hcl] at hrun
        exact ih _ (inv_discard I hext hcl) path mc ev c' hrun
      · by_cases hg : p.state = goal
        · rw [stepLoop_goal hext hcl hg] at hrun
          simp only [Sum.inr.injEq, Prod.mk.injEq] at hrun
          obtain ⟨⟨-, hmc, -⟩, -⟩ := hrun
          have hpin : p ∈ c.openL :=
            (extractMin_perm hext).symm.subset (List.mem_cons_self p rest)
          have hlen := (I.nodes p hpin).2.2.2
          have hmcg : mc = p.g_cost := by omega
          have hopt := pop_optimal I Hcons hext hcl
          rw [hg] at hopt
          rw [hmcg]
          exact hopt
        · rw [stepLoop_expand hext hcl hg] at hrun
          exact ih _ (inv_expand I Hcons hext hcl) path mc ev c' hrun

/-- Claim C1: with an admissible and consistent heuristic, whenever
`solve` returns a path — which happens exactly when the engine first
pops a node whose state equals the goal, the returned move count being
that node's `g_cost` — the returned move count is the true
shortest-path distance from the initial state to the goal. -/
theorem solve_optimal (init goal : PState) (h : PState → PState → Nat)
    (fuel : Nat)
    (Hadm : ∀ s n, ReachN n s goal → h s goal ≤ n)
    (Hcons : ∀ s a, a ∈ available_actions s →
      h s goal ≤ h (do_action s a) goal + 1)
    (path : List (PState × Option Action)) (mc ev : Nat)
    (hrun : solve init goal h fuel = some (some path, mc, ev)) :
    IsDist init goal mc := by
  unfold solve at hrun
  cases hloop : loopIter goal h fuel (initConfig init goal h) with
  | inl c => rw [hloop] at hrun; cases hrun
  | inr rc =>
    obtain ⟨r, c'⟩ := rc
    rw [hloop] at hrun
    cases hrun
    exact loopIter_optimal Hcons fuel _ (inv_init init goal h)
      path mc ev c' hloop

/-- Closed witness for C1: a one-move 2×2 instance solved with the
(trivially admissible and consistent) zero heuristic; the returned move
count 1 is the true distance. -/
theorem solve_optimal_witness :
    IsDist [[1, 2], [0, 3]] [[1, 2], [3, 0]] 1 :=
  solve_optimal [[1, 2], [0, 3]] [[1, 2], [3, 0]] (fun _ _ => 0) 5
    (fun _ n _ => Nat.zero_le n) (fun _ _ _ => Nat.zero_le _)
    [([[1, 2], [0, 3]], none), ([[1, 2], [3, 0]], some ((1, 0), (1, 1)))]
    1 2 (by rfl)

end GemPuzzle
